import Mathlib

/-!
Verification of the git-hook-installer core subsystems:
the managed-block text engine (`src/hooks/managed_block.rs`),
the repository resolver (`src/git_repo.rs`), the snapshot pruner
(`src/hooks/snapshots.rs`) and the hook-file writer (`src/hooks/fs.rs`).

Rust strings are modelled as `List Char` (`Str`); Rust `str::lines`
is modelled faithfully (split at `\n`, strip one `\r` before a `\n`,
no empty trailing line) by `rustLines`.
-/

namespace GHI

/-- A Rust string, modelled as its character sequence. -/
abbrev Str := List Char

/-- Shorthand turning a Lean string literal into the `Str` model. -/
def str (x : String) : Str := x.data

/-- `# >>> git-hook-installer managed block >>>` (managed_block.rs). -/
def MANAGED_BLOCK_BEGIN : Str := str "# >>> git-hook-installer managed block >>>"

/-- `# <<< git-hook-installer managed block <<<` (managed_block.rs). -/
def MANAGED_BLOCK_END : Str := str "# <<< git-hook-installer managed block <<<"

/-- Strip a single trailing `\r` (the `\r\n` case of Rust `str::lines`). -/
def stripCr (l : Str) : Str :=
  match l.getLast? with
  | some '\r' => l.dropLast
  | _ => l

/-- Worker for `rustLines`; `acc` is the reversed current segment. -/
def rustLinesAux : Str → Str → List Str
  | [], acc => if acc = [] then [] else [acc.reverse]
  | c :: rest, acc =>
    if c = '\n' then stripCr acc.reverse :: rustLinesAux rest []
    else rustLinesAux rest (c :: acc)

/-- Rust `str::lines` on `List Char`: segments are terminated by `\n`
(a `\r` before the `\n` is stripped); a final segment without terminator
is kept; the empty string has no lines. -/
def rustLines (t : Str) : List Str := rustLinesAux t []

/-- `normalize_newline_join` (managed_block.rs): join with `\n` and
guarantee a single trailing newline. -/
def normalize_newline_join (lines : List Str) : Str :=
  let out := List.intercalate ['\n'] lines
  if out.getLast? = some '\n' then out else out ++ ['\n']

/-- Does a string start with `#!`? (`first_line.starts_with("#!")`:
Rust `lines().next().unwrap_or_default()` is the first `\n`-segment.) -/
def firstLineIsShebang (contents : Str) : Bool :=
  (str "#!").isPrefixOf (contents.takeWhile (· ≠ '\n'))

/-- `ensure_shebang` (managed_block.rs). -/
def ensure_shebang (contents : Str) : Str :=
  if firstLineIsShebang contents then contents
  else str "#!/bin/sh\n" ++ contents

/-- The marker-scanning loop shared by upsert / uninstall / disable:
the first line equal to the begin marker keeps updating `start`
(`continue`), the first line equal to the end marker stops the scan
(`break`). -/
def scanMarkersAux : List Str → Nat → Option Nat → Option Nat × Option Nat
  | [], _, st => (st, none)
  | l :: rest, i, st =>
    if l = MANAGED_BLOCK_BEGIN then scanMarkersAux rest (i + 1) (some i)
    else if l = MANAGED_BLOCK_END then (st, some i)
    else scanMarkersAux rest (i + 1) st

/-- `(start_idx, end_idx)` after the scanning loop over the whole file. -/
def scanMarkers (lines : List Str) : Option Nat × Option Nat :=
  scanMarkersAux lines 0 none

/-- The no-recognized-block branch of `upsert_managed_block`: insert the
block after a leading shebang line (blank-separated), else at the top. -/
def insertBlockLines (lines block_lines : List Str) : List Str :=
  let insert_at : Nat :=
    match lines with
    | [] => 0
    | l :: _ => if (str "#!").isPrefixOf l then 1 else 0
  lines.take insert_at ++ (if insert_at > 0 then [[]] else []) ++
    block_lines ++ [[]] ++ lines.drop insert_at

/-- `upsert_managed_block` (managed_block.rs). -/
def upsert_managed_block (existing block : Str) : Str :=
  let lines := rustLines existing
  let block_lines := rustLines block
  match scanMarkers lines with
  | (some start, some «end») =>
    if start ≤ «end» then
      ensure_shebang (normalize_newline_join
        (lines.take start ++ block_lines ++ lines.drop («end» + 1)))
    else
      ensure_shebang (normalize_newline_join (insertBlockLines lines block_lines))
  | _ =>
    ensure_shebang (normalize_newline_join (insertBlockLines lines block_lines))

/-- `uninstall_managed_block` (managed_block.rs). -/
def uninstall_managed_block (existing : Str) : Except Str Str :=
  let lines := rustLines existing
  match scanMarkers lines with
  | (some start, some «end») =>
    if start > «end» then
      .error (str "Invalid managed block markers in pre-commit hook")
    else
      .ok (normalize_newline_join (lines.take start ++ lines.drop («end» + 1)))
  | _ => .error (str "No managed git-hook-installer block found in pre-commit hook")

/-- Rust `char::is_whitespace` restricted to the characters that can occur
in our model (the Unicode `White_Space` set). -/
def isRustWhitespace (c : Char) : Bool :=
  c = ' ' ∨ c = '\t' ∨ c = '\n' ∨ c = '\r' ∨ c.val = 0xB ∨ c.val = 0xC ∨
    c.val = 0x85 ∨ c.val = 0xA0 ∨ c.val = 0x1680 ∨
    (0x2000 ≤ c.val ∧ c.val ≤ 0x200A) ∨ c.val = 0x2028 ∨ c.val = 0x2029 ∨
    c.val = 0x202F ∨ c.val = 0x205F ∨ c.val = 0x3000

/-- Rust `str::trim_start`. -/
def rustTrimStart (t : Str) : Str := t.dropWhile isRustWhitespace

/-- Rust `str::trim`. -/
def rustTrim (t : Str) : Str :=
  ((t.dropWhile isRustWhitespace).reverse.dropWhile isRustWhitespace).reverse

/-- The line the disable loop writes over a flag line: `GHI_ENABLED=0`. -/
def GHI_DISABLED_LINE : Str := str "GHI_ENABLED=0"

/-- `line.trim_start().starts_with("GHI_ENABLED=")` (managed_block.rs). -/
def isGhiFlagLine (l : Str) : Bool :=
  (str "GHI_ENABLED=").isPrefixOf (rustTrimStart l)

/-- `disable_managed_block` (managed_block.rs): inside the block range,
every line whose trimmed start is `GHI_ENABLED=` becomes `GHI_ENABLED=0`;
error if the scan finds no block or no such line was in range. -/
def disable_managed_block (existing : Str) : Except Str Str :=
  let lines := rustLines existing
  match scanMarkers lines with
  | (some start, some «end») =>
    if start > «end» then
      .error (str "Invalid managed block markers in pre-commit hook")
    else
      let out := lines.enum.map (fun p =>
        if p.1 < start ∨ p.1 > «end» then p.2
        else if isGhiFlagLine p.2 then GHI_DISABLED_LINE
        else p.2)
      let did_change := lines.enum.any (fun p =>
        decide (¬ (p.1 < start ∨ p.1 > «end»)) && isGhiFlagLine p.2)
      if did_change then .ok (normalize_newline_join out)
      else .error (str "Managed block found, but no GHI_ENABLED setting line was found")
  | _ => .error (str "No managed git-hook-installer block found in pre-commit hook")

/-- Well-formed line lists: no line contains a newline or a carriage
return (the shape `rustLines` produces on carriage-return-free input). -/
def linesOk (ls : List Str) : Prop :=
  ∀ l ∈ ls, '\n' ∉ l ∧ '\r' ∉ l

/-- Rust `str::contains(needle)`: substring containment. -/
def strContains (haystack needle : Str) : Bool :=
  match haystack with
  | [] => needle.isPrefixOf []
  | _ :: rest => needle.isPrefixOf haystack || strContains rest needle

/-- Decidable equality for `Except`, for evaluating results. -/
def exceptDecEq {ε α : Type} [DecidableEq ε] [DecidableEq α] :
    DecidableEq (Except ε α)
  | .error e, .error f =>
    if h : e = f then .isTrue (h ▸ rfl) else .isFalse (fun c => by cases c; exact h rfl)
  | .error _, .ok _ => .isFalse (fun c => by cases c)
  | .ok _, .error _ => .isFalse (fun c => by cases c)
  | .ok a, .ok b =>
    if h : a = b then .isTrue (h ▸ rfl) else .isFalse (fun c => by cases c; exact h rfl)

instance {ε α : Type} [DecidableEq ε] [DecidableEq α] : DecidableEq (Except ε α) :=
  exceptDecEq

/-! ### Paths and the worktree `.git` indirection (`src/git_repo.rs`) -/

/-- A filesystem path: an absolute flag (leading `/`) plus components.
Mirrors the Unix behaviour of `std::path::PathBuf`. -/
structure RPath where
  absolute : Bool
  components : List Str
deriving DecidableEq

/-- `path.join(name)` for a single normal component. -/
def RPath.child (p : RPath) (name : Str) : RPath :=
  ⟨p.absolute, p.components ++ [name]⟩

/-- `Path::parent`: strip the last component; `None` when no component
is left to strip. -/
def RPath.parent? (p : RPath) : Option RPath :=
  if p.components = [] then none
  else some ⟨p.absolute, p.components.dropLast⟩

/-- `Path::join` on whole paths: an absolute right-hand side replaces
the left-hand side. -/
def RPath.join (p q : RPath) : RPath :=
  if q.absolute then q else ⟨p.absolute, p.components ++ q.components⟩

/-- Split a raw path string at `/` (worker, reversed-segment accumulator). -/
def splitSlashAux : Str → Str → List Str
  | [], acc => [acc.reverse]
  | c :: rest, acc =>
    if c = '/' then acc.reverse :: splitSlashAux rest []
    else splitSlashAux rest (c :: acc)

/-- `PathBuf::from(raw)` on Unix: absolute iff the string starts with `/`;
the components are the non-empty `/`-separated segments. -/
def pathFromString (raw : Str) : RPath :=
  ⟨raw.head? = some '/', (splitSlashAux raw []).filter (· ≠ [])⟩

/-- `parse_gitdir_file` (git_repo.rs), with the file's contents supplied:
trim, demand the literal `gitdir:` prefix, trim the rest, reject an empty
path, return an absolute path as-is and resolve a relative path against
the parent of the `.git` file. -/
def parse_gitdir_file (dot_git_file : RPath) (contents : Str) : Except Str RPath :=
  let trimmed := rustTrim contents
  if (str "gitdir:").isPrefixOf trimmed then
    let gitdir_raw := rustTrim (trimmed.drop 7)
    if gitdir_raw = [] then .error (str "Invalid gitdir in .git file")
    else
      let gitdir_path := pathFromString gitdir_raw
      if gitdir_path.absolute then .ok gitdir_path
      else
        match dot_git_file.parent? with
        | none => .error (str "Invalid .git path")
        | some parent => .ok (parent.join gitdir_path)
  else .error (str "Unsupported .git file format")

/-! ### Filesystem model -/

/-- A filesystem tree: directories hold named children in listing order. -/
inductive FsTree where
  | dir (children : List (Str × FsTree))
  | file (contents : Str)

/-- Association-list lookup among a directory's children. -/
def lookupChild : List (Str × FsTree) → Str → Option FsTree
  | [], _ => none
  | (n, t) :: rest, name => if n = name then some t else lookupChild rest name

/-- Resolve a component list inside the tree. -/
def FsTree.lookup : FsTree → List Str → Option FsTree
  | t, [] => some t
  | .file _, _ :: _ => none
  | .dir children, n :: rest =>
    match lookupChild children n with
    | none => none
    | some c => c.lookup rest

/-- `path.is_dir()`. -/
def FsTree.isDirAt (fs : FsTree) (p : RPath) : Bool :=
  match fs.lookup p.components with
  | some (.dir _) => true
  | _ => false

/-- `path.is_file()`. -/
def FsTree.isFileAt (fs : FsTree) (p : RPath) : Bool :=
  match fs.lookup p.components with
  | some (.file _) => true
  | _ => false

/-- `fs::read_to_string(path)`, when `path` is a regular file. -/
def FsTree.readAt (fs : FsTree) (p : RPath) : Option Str :=
  match fs.lookup p.components with
  | some (.file c) => some c
  | _ => none

/-- `fs::read_dir(path)`, when `path` is a directory. -/
def FsTree.readDirAt (fs : FsTree) (p : RPath) : Option (List (Str × FsTree)) :=
  match fs.lookup p.components with
  | some (.dir children) => some children
  | _ => none

/-- `git_dir_from_repo_root` (git_repo.rs): `root/.git` as a directory is
itself the git dir; as a file it is parsed as a worktree indirection;
otherwise the directory is not a repository root. -/
def git_dir_from_repo_root (fs : FsTree) (repo_root : RPath) : Except Str (Option RPath) :=
  let dot_git := repo_root.child (str ".git")
  if fs.isDirAt dot_git then .ok (some dot_git)
  else if fs.isFileAt dot_git then
    match fs.readAt dot_git with
    | some contents => (parse_gitdir_file dot_git contents).map some
    | none => .error (str "Failed to read .git file")
  else .ok none

/-! ### Bulk repository scanning (`find_git_repos_under_dir`) -/

/-- The fixed directory-name deny list of `find_git_repos_under_dir`. -/
def denyNames : List Str :=
  [str ".git", str "node_modules", str "target", str "dist", str "build",
   str ".venv", str "__pycache__", str ".tox", str ".idea", str ".vscode"]

/-- `MAX_ENTRIES` (git_repo.rs). -/
def MAX_ENTRIES : Nat := 200000

/-- The inner `for entry in entries` loop: counts every entry against the
budget, enqueues child directories not on the deny list. Returns the new
queue entries in listing order and the updated visited count. -/
def scanChildren (dir : RPath) (depth : Nat) :
    List (Str × FsTree) → Nat → List (RPath × Nat) × Nat
  | [], visited => ([], visited)
  | (name, child) :: rest, visited =>
    if visited ≥ MAX_ENTRIES then ([], visited)
    else
      let visited := visited + 1
      match child with
      | .file _ => scanChildren dir depth rest visited
      | .dir _ =>
        if name ∈ denyNames then scanChildren dir depth rest visited
        else
          let (qs, visited') := scanChildren dir depth rest visited
          ((dir.child name, depth + 1) :: qs, visited')

/-- The breadth-first `while let Some((dir, depth)) = queue.pop_front()`
loop of `find_git_repos_under_dir`. The extra fuel argument only makes the
recursion structural; called with fuel `MAX_ENTRIES + 1` it can exhaust
only when the visited-entries budget has already been exceeded, so the
fuel-out result coincides with the loop's `break`. -/
def bfsLoop (fs : FsTree) (max_depth : Nat) :
    Nat → List (RPath × Nat) → List RPath → List (RPath × RPath) → Nat →
    Except Str (List (RPath × RPath))
  | _, [], _, found, _ => .ok found
  | 0, _ :: _, _, found, _ => .ok found
  | fuel + 1, (dir, depth) :: queue, seen, found, visited =>
    if visited ≥ MAX_ENTRIES then .ok found
    else
      let visited := visited + 1
      match git_dir_from_repo_root fs dir with
      | .error e => .error e
      | .ok (some git_dir) =>
        if dir ∈ seen then bfsLoop fs max_depth fuel queue seen found visited
        else bfsLoop fs max_depth fuel queue (dir :: seen) (found ++ [(dir, git_dir)]) visited
      | .ok none =>
        if depth ≥ max_depth then bfsLoop fs max_depth fuel queue seen found visited
        else
          match fs.readDirAt dir with
          | none => bfsLoop fs max_depth fuel queue seen found visited
          | some entries =>
            let (new_entries, visited') := scanChildren dir depth entries visited
            bfsLoop fs max_depth fuel (queue ++ new_entries) seen found visited'

/-- Byte-lexicographic order on strings, as `Ord` on Rust `String`
(UTF-8 byte order equals code-point order). -/
def strLe : Str → Str → Bool
  | [], _ => true
  | _ :: _, [] => false
  | a :: ra, b :: rb => if a = b then strLe ra rb else decide (a.toNat < b.toNat)

/-- `strLe` as a relation. -/
def strLE (a b : Str) : Prop := strLe a b = true

instance : DecidableRel strLE := fun a b => decEq (strLe a b) true

instance : IsTotal Str strLE := by
  constructor
  intro a
  induction a with
  | nil => intro b; left; rfl
  | cons x xs ih =>
    intro b
    cases b with
    | nil => right; rfl
    | cons y ys =>
      by_cases hxy : x = y
      · subst hxy
        rcases ih ys with h | h
        · left; simpa [strLE, strLe] using h
        · right; simpa [strLE, strLe] using h
      · have hne : x.toNat ≠ y.toNat := by
          intro hc
          unfold Char.toNat at hc
          exact hxy (Char.eq_of_val_eq (UInt32.toNat.inj hc))
        rcases Nat.lt_or_ge x.toNat y.toNat with h | h
        · left; simp [strLE, strLe, if_neg hxy, h]
        · right
          simp only [strLE, strLe, if_neg (Ne.symm hxy), decide_eq_true_eq]
          omega

instance : IsTrans Str strLE := by
  constructor
  intro a
  induction a with
  | nil => intro b c _ _; rfl
  | cons x xs ih =>
    intro b c hab hbc
    cases b with
    | nil => simp [strLE, strLe] at hab
    | cons y ys =>
      cases c with
      | nil => simp [strLE, strLe] at hbc
      | cons z zs =>
        by_cases hxy : x = y <;> by_cases hyz : y = z
        · subst hxy; subst hyz
          simp only [strLE, strLe, if_pos rfl] at hab hbc ⊢
          exact ih ys zs hab hbc
        · subst hxy
          simp only [strLE, strLe, if_pos rfl, if_neg hyz] at hab hbc ⊢
          exact hbc
        · subst hyz
          simp only [strLE, strLe, if_neg hxy] at hab ⊢
          exact hab
        · simp only [strLE, strLe, if_neg hxy, if_neg hyz,
            decide_eq_true_eq] at hab hbc
          have hxz : x ≠ z := by
            intro he
            subst he
            omega
          simp only [strLE, strLe, if_neg hxz, decide_eq_true_eq]
          omega

/-- Lexicographic order on component lists, as `Ord` on `Path`. -/
def compsLe : List Str → List Str → Bool
  | [], _ => true
  | _ :: _, [] => false
  | a :: ra, b :: rb => if a = b then compsLe ra rb else strLe a b

/-- Path order: an absolute path (starting with the root component)
sorts before relative ones, then components lexicographically. -/
def rpathLE (p q : RPath) : Prop :=
  (if p.absolute = q.absolute then compsLe p.components q.components
   else p.absolute) = true

instance : DecidableRel rpathLE := fun p q => by unfold rpathLE; infer_instance

/-- Order on `found` entries by repository root, as
`found.sort_by(|(a, _), (b, _)| a.cmp(b))`. -/
def foundLE (a b : RPath × RPath) : Prop := rpathLE a.1 b.1

instance : DecidableRel foundLE := fun a b => by unfold foundLE; infer_instance

/-- `find_git_repos_under_dir` (git_repo.rs). Rust's stable `sort_by` is
modelled by insertion sort, which computes the same list (both are stable
sorts for the same total order). -/
def find_git_repos_under_dir (fs : FsTree) (scan_root : RPath) (max_depth : Nat) :
    Except Str (List (RPath × RPath)) :=
  if fs.isDirAt scan_root then
    match bfsLoop fs max_depth (MAX_ENTRIES + 1) [(scan_root, 0)] [] [] 0 with
    | .error e => .error e
    | .ok found => .ok (found.insertionSort foundLE)
  else .error (str "Scan root is not a directory")

/-! ### Snapshot pruning (`src/hooks/snapshots.rs`) -/

/-- The file names `prune_hook_snapshots` deletes from a directory
listing: nothing when `max_snapshots = 0`; otherwise the lexicographically
smallest prefix-matching names beyond the retention count. Rust's stable
`sort` is modelled by insertion sort (same resulting list). -/
def prune_deletions (listing : List Str) (pre : Str) (max_snapshots : Nat) : List Str :=
  if max_snapshots = 0 then []
  else
    let snapshots := (listing.filter (fun n => pre.isPrefixOf n)).insertionSort strLE
    if snapshots.length ≤ max_snapshots then []
    else snapshots.take (snapshots.length - max_snapshots)

/-- The directory listing after `prune_hook_snapshots` (file names are
unique in a directory, so deletion removes exactly the listed names). -/
def prune_result (listing : List Str) (pre : Str) (max_snapshots : Nat) : List Str :=
  listing.filter (fun n => n ∉ prune_deletions listing pre max_snapshots)

/-! ### Hook-file writer (`src/hooks/fs.rs`) -/

/-- `InstallOptions` (hooks/types.rs). -/
structure InstallOptions where
  yes : Bool
  non_interactive : Bool
  force : Bool
deriving DecidableEq

/-- What `upsert_managed_block_in_file` did to the filesystem. -/
structure WriteEffect where
  /-- a `.bak` backup of an unmanaged hook was created -/
  backedUp : Bool
  /-- a timestamped snapshot was created before the write -/
  snapshotted : Bool
  /-- the contents written, if the file was written at all -/
  wrote : Option Str
deriving DecidableEq

/-- `handle_existing_hook` (hooks/fs.rs): force/yes back up and proceed;
non-interactive without them is an error; otherwise the interactive
confirmation (its answer is passed in) decides. Returns whether a backup
was made. The `.bak` naming itself is out of scope here and modelled as
succeeding. -/
def handle_existing_hook (options : InstallOptions) (prompt_answer : Bool) :
    Except Str Bool :=
  if options.force || options.yes then .ok true
  else if options.non_interactive then
    .error (str "Hook already exists (use --force to overwrite)")
  else if prompt_answer then .ok true
  else .error (str "Aborted (existing hook was not modified).")

/-- `upsert_managed_block_in_file` (hooks/fs.rs), over the file's current
contents (`none` = the file does not exist): the managedness test is
substring containment of both markers; an unmanaged existing hook runs the
consent/backup flow first; identical old and new contents mean no snapshot
and no write. -/
def upsert_managed_block_in_file (existing : Option Str) (block : Str)
    (options : InstallOptions) (prompt_answer : Bool) : Except Str WriteEffect :=
  match existing with
  | none =>
    .ok ⟨false, false, some (ensure_shebang block)⟩
  | some contents =>
    let has_managed := strContains contents MANAGED_BLOCK_BEGIN &&
      strContains contents MANAGED_BLOCK_END
    let consent : Except Str Bool :=
      if !has_managed then handle_existing_hook options prompt_answer
      else .ok false
    match consent with
    | .error e => .error e
    | .ok backed_up =>
      let updated := upsert_managed_block contents block
      if contents = updated then .ok ⟨backed_up, false, none⟩
      else .ok ⟨backed_up, true, some updated⟩

/-- `write_hook_with_snapshot_if_changed` (hooks/fs.rs): returns whether a
snapshot was taken and what was written. -/
def write_hook_with_snapshot_if_changed (existing updated : Str) : Bool × Option Str :=
  if existing = updated then (false, none)
  else (true, some updated)

/-! ### Concrete fixtures used by the scenario theorems -/

/-- A well-formed generated block: begin marker, flag line, end marker. -/
def demoBlock : Str :=
  normalize_newline_join [MANAGED_BLOCK_BEGIN, str "GHI_ENABLED=1", MANAGED_BLOCK_END]

/-- A hook file whose entire content is a fresh install of `demoBlock`. -/
def demoManagedHook : Str :=
  str "#!/bin/sh\n" ++ MANAGED_BLOCK_BEGIN ++ str "\nGHI_ENABLED=1\n" ++
    MANAGED_BLOCK_END ++ str "\n"

/-- A hook file with a begin marker but no end marker anywhere after it. -/
def danglingBeginHook : Str :=
  MANAGED_BLOCK_BEGIN ++ str "\necho orphan\n"

/-- A directory tree whose only repository root sits two levels below the
scan root, with a nested repository and an ordinary subdirectory inside it. -/
def demoFs : FsTree :=
  .dir [(str "mid", .dir [(str "repo", .dir
    [(str ".git", .dir []),
     (str "inner", .dir [(str ".git", .dir [])]),
     (str "src", .dir [])])])]

/-- A tree whose `repo/.git` is a worktree file pointing at a directory
that does not exist. -/
def danglingGitdirFs : FsTree :=
  .dir [(str "repo", .dir [(str ".git", .file (str "gitdir: gone"))])]

/-- An ordinary repository: `repo/.git` is a directory. -/
def ordinaryRepoFs : FsTree :=
  .dir [(str "repo", .dir [(str ".git", .dir [])])]

/-- A pre-existing user hook whose marker text appears only indented, so
it contains both markers as substrings but has no exact marker line. -/
def indentedMarkersHook : Str :=
  str " " ++ MANAGED_BLOCK_BEGIN ++ str "\n " ++ MANAGED_BLOCK_END ++
    str "\necho legacy\n"

end GHI

namespace GHI

/-- C5: upserting into an existing shebang-led hook with no recognized
block inserts the new block right after the shebang line, blank-separated
on both sides: `"#!/bin/sh\necho hi\n"` with the real marker lines around
body `Y` yields exactly
`"#!/bin/sh\n\n<begin>\nY\n<end>\n\necho hi\n"`. -/
theorem upsert_inserts_after_shebang_scenario_b :
    upsert_managed_block (str "#!/bin/sh\necho hi\n")
      (normalize_newline_join [MANAGED_BLOCK_BEGIN, str "Y", MANAGED_BLOCK_END]) =
    str "#!/bin/sh\n\n" ++ MANAGED_BLOCK_BEGIN ++ str "\nY\n" ++
      MANAGED_BLOCK_END ++ str "\n\necho hi\n" := by
  decide

/-- C7: scanning `demoFs` (repository root `mid/repo` two levels below
the scan root, containing a nested repository `mid/repo/inner` and a
plain subdirectory) finds nothing at `max_depth = 1` and finds exactly
the one root — reported once, with nothing from inside it — at
`max_depth = 2`, because the walk does not descend into a found root. -/
theorem scan_depth_bound_and_no_descend_scenario_d :
    find_git_repos_under_dir demoFs ⟨false, []⟩ 1 = .ok [] ∧
    find_git_repos_under_dir demoFs ⟨false, []⟩ 2 =
      .ok [(⟨false, [str "mid", str "repo"]⟩,
            ⟨false, [str "mid", str "repo", str ".git"]⟩)] := by
  decide

/-- C2 counterexample: with `repo/.git` a worktree file whose `gitdir:`
target does not exist, resolution returns the dangling path
`repo/gone` inside `Ok` instead of failing, and that path is not a
directory — refuting the claimed invariant. -/
theorem dangling_gitdir_returned_not_rejected_cex :
    git_dir_from_repo_root danglingGitdirFs ⟨false, [str "repo"]⟩ =
      .ok (some ⟨false, [str "repo", str "gone"]⟩) ∧
    danglingGitdirFs.isDirAt ⟨false, [str "repo", str "gone"]⟩ = false := by
  decide

/-- C2 amended: when resolution succeeds with a git directory, either
`.git` was a real directory and the result is exactly that directory
(which therefore exists), or `.git` was a worktree indirection file and
the result is whatever `parse_gitdir_file` produced, with no existence
check performed on it. -/
theorem git_dir_resolution_characterization (fs : FsTree) (root : RPath) (gd : RPath)
    (h : git_dir_from_repo_root fs root = .ok (some gd)) :
    (fs.isDirAt (root.child (str ".git")) = true ∧ gd = root.child (str ".git")) ∨
    (fs.isDirAt (root.child (str ".git")) = false ∧
     fs.isFileAt (root.child (str ".git")) = true ∧
     ∃ contents, fs.readAt (root.child (str ".git")) = some contents ∧
       parse_gitdir_file (root.child (str ".git")) contents = .ok gd) := by
  unfold git_dir_from_repo_root at h
  by_cases hdir : fs.isDirAt (root.child (str ".git"))
  · left
    simp [hdir] at h
    exact ⟨hdir, h.symm⟩
  · right
    by_cases hfile : fs.isFileAt (root.child (str ".git"))
    · simp [hdir, hfile] at h
      match hread : fs.readAt (root.child (str ".git")) with
      | none => rw [hread] at h; simp at h
      | some contents =>
        rw [hread] at h
        simp only [] at h
        refine ⟨by simpa using hdir, hfile, contents, rfl, ?_⟩
        match hp : parse_gitdir_file (root.child (str ".git")) contents with
        | .error e => rw [hp] at h; simp [Except.map] at h
        | .ok g => rw [hp] at h; simp [Except.map] at h; rw [h]
    · simp [hdir, hfile] at h

/-- C2 amended, witness: an ordinary repository (`repo/.git` a directory)
resolves, and the characterization puts it in the existing-directory case. -/
theorem git_dir_resolution_characterization_witness :
    git_dir_from_repo_root ordinaryRepoFs ⟨false, [str "repo"]⟩ =
      .ok (some ⟨false, [str "repo", str ".git"]⟩) ∧
    ((ordinaryRepoFs.isDirAt ((⟨false, [str "repo"]⟩ : RPath).child (str ".git")) = true ∧
      (⟨false, [str "repo", str ".git"]⟩ : RPath) =
        (⟨false, [str "repo"]⟩ : RPath).child (str ".git")) ∨
     (ordinaryRepoFs.isDirAt ((⟨false, [str "repo"]⟩ : RPath).child (str ".git")) = false ∧
      ordinaryRepoFs.isFileAt ((⟨false, [str "repo"]⟩ : RPath).child (str ".git")) = true ∧
      ∃ contents,
        ordinaryRepoFs.readAt ((⟨false, [str "repo"]⟩ : RPath).child (str ".git")) =
          some contents ∧
        parse_gitdir_file ((⟨false, [str "repo"]⟩ : RPath).child (str ".git")) contents =
          .ok ⟨false, [str "repo", str ".git"]⟩)) :=
  ⟨by decide, git_dir_resolution_characterization ordinaryRepoFs ⟨false, [str "repo"]⟩
    ⟨false, [str "repo", str ".git"]⟩ (by decide)⟩

set_option maxRecDepth 20000 in
/-- C10: a pre-existing user hook with both markers present only as
indented substrings is treated as "managed" by the writer's substring
test, so even with `non_interactive` set (and neither `force` nor `yes`)
no consent is requested and no backup is made, while the block engine
recognizes no block (the scan finds no exact marker line) and inserts a
brand-new block into the foreign file. -/
theorem substring_managedness_skips_consent :
    scanMarkers (rustLines indentedMarkersHook) = (none, none) ∧
    upsert_managed_block_in_file (some indentedMarkersHook) demoBlock
      ⟨false, true, false⟩ false =
    .ok ⟨false, true, some (str "#!/bin/sh\n" ++ MANAGED_BLOCK_BEGIN ++
      str "\nGHI_ENABLED=1\n" ++ MANAGED_BLOCK_END ++ str "\n\n" ++
      indentedMarkersHook)⟩ := by
  decide

set_option maxRecDepth 40000 in
/-- C1 counterexample: on a file whose first line is the begin marker
with no end marker anywhere after it, `upsert` does not fail — it treats
the text as having no recognized block and inserts a brand-new block at
the top, leaving the dangling begin marker in place (two begin-marker
lines in the result). -/
theorem begin_without_end_upsert_inserts_cex :
    scanMarkers (rustLines danglingBeginHook) = (some 0, none) ∧
    upsert_managed_block danglingBeginHook demoBlock =
      str "#!/bin/sh\n" ++ MANAGED_BLOCK_BEGIN ++ str "\nGHI_ENABLED=1\n" ++
        MANAGED_BLOCK_END ++ str "\n\n" ++ danglingBeginHook ∧
    (rustLines (upsert_managed_block danglingBeginHook demoBlock)).count
      MANAGED_BLOCK_BEGIN = 2 := by
  decide

/-- C1 amended: on text whose marker scan finds a begin marker but no end
marker, `uninstall` and `disable` return a hard error, while `upsert`
(which is infallible) treats the block as absent and takes the
insert-a-new-block branch. -/
theorem begin_without_end_ops (t b : Str) (s0 : Nat)
    (h : scanMarkers (rustLines t) = (some s0, none)) :
    uninstall_managed_block t =
      .error (str "No managed git-hook-installer block found in pre-commit hook") ∧
    disable_managed_block t =
      .error (str "No managed git-hook-installer block found in pre-commit hook") ∧
    upsert_managed_block t b =
      ensure_shebang (normalize_newline_join
        (insertBlockLines (rustLines t) (rustLines b))) := by
  refine ⟨?_, ?_, ?_⟩
  · simp [uninstall_managed_block, h]
  · simp [disable_managed_block, h]
  · simp [upsert_managed_block, h]

/-- C1 amended, witness at the concrete dangling-begin file. -/
theorem begin_without_end_ops_witness :
    scanMarkers (rustLines danglingBeginHook) = (some 0, none) ∧
    uninstall_managed_block danglingBeginHook =
      .error (str "No managed git-hook-installer block found in pre-commit hook") :=
  ⟨by decide, (begin_without_end_ops danglingBeginHook demoBlock 0 (by decide)).1⟩

/-- C9: the writer never snapshots or writes over an existing hook when
the engine's output equals the current contents, and it snapshots exactly
when the output differs; `write_hook_with_snapshot_if_changed` likewise
does nothing exactly on equal contents. -/
theorem snapshot_only_on_change (c block : Str) (options : InstallOptions)
    (pa : Bool) (eff : WriteEffect)
    (h : upsert_managed_block_in_file (some c) block options pa = .ok eff) :
    ((upsert_managed_block c block = c → eff.snapshotted = false ∧ eff.wrote = none) ∧
     (eff.snapshotted = true ↔ upsert_managed_block c block ≠ c)) ∧
    (∀ e u : Str, write_hook_with_snapshot_if_changed e u = (false, none) ↔ e = u) := by
  constructor
  · simp only [upsert_managed_block_in_file] at h
    split at h
    · simp at h
    · split at h
      · rename_i hif
        simp only [Except.ok.injEq] at h
        subst h
        exact ⟨fun _ => ⟨rfl, rfl⟩, by simp [← hif]⟩
      · rename_i hif
        simp only [Except.ok.injEq] at h
        subst h
        exact ⟨fun he => absurd he.symm hif, by simpa using Ne.symm hif⟩
  · intro e u
    unfold write_hook_with_snapshot_if_changed
    split
    · rename_i heq; simp [heq]
    · rename_i hne; simpa using hne

/-- C9 witness: re-upserting the identical block over an already-managed
hook yields equal content, no snapshot, no write. -/
theorem snapshot_only_on_change_witness :
    upsert_managed_block_in_file (some demoManagedHook) demoBlock
      ⟨false, true, false⟩ false = .ok ⟨false, false, none⟩ ∧
    (upsert_managed_block demoManagedHook demoBlock = demoManagedHook →
      (⟨false, false, none⟩ : WriteEffect).snapshotted = false ∧
      (⟨false, false, none⟩ : WriteEffect).wrote = none) :=
  ⟨by decide, ((snapshot_only_on_change demoManagedHook demoBlock ⟨false, true, false⟩
    false ⟨false, false, none⟩ (by decide)).1).1⟩

/-- C6: parsing a worktree `.git` file errors when the trimmed content
lacks the literal `gitdir:` prefix, errors when the path portion is empty
after trimming, resolves `gitdir: .git/worktrees/w1` against the directory
containing the `.git` file (so `<root>/.git` yields
`<root>/.git/worktrees/w1`, independent of any working directory), and
returns an absolute path as-is. -/
theorem parse_gitdir_characterization :
    (∀ (p : RPath) (c : Str), (str "gitdir:").isPrefixOf (rustTrim c) = false →
      parse_gitdir_file p c = .error (str "Unsupported .git file format")) ∧
    (∀ (p : RPath) (c : Str), (str "gitdir:").isPrefixOf (rustTrim c) = true →
      rustTrim ((rustTrim c).drop 7) = [] →
      parse_gitdir_file p c = .error (str "Invalid gitdir in .git file")) ∧
    (∀ root : RPath, parse_gitdir_file (root.child (str ".git"))
        (str "gitdir: .git/worktrees/w1\n") =
      .ok ⟨root.absolute, root.components ++ [str ".git", str "worktrees", str "w1"]⟩) ∧
    (∀ (p : RPath) (c : Str), (str "gitdir:").isPrefixOf (rustTrim c) = true →
      rustTrim ((rustTrim c).drop 7) ≠ [] →
      (pathFromString (rustTrim ((rustTrim c).drop 7))).absolute = true →
      parse_gitdir_file p c = .ok (pathFromString (rustTrim ((rustTrim c).drop 7)))) := by
  refine ⟨?_, ?_, ?_, ?_⟩
  · intro p c h
    simp [parse_gitdir_file, h]
  · intro p c h1 h2
    simp [parse_gitdir_file, h1, h2]
  · intro root
    obtain ⟨abs, comps⟩ := root
    have h1 : rustTrim (str "gitdir: .git/worktrees/w1\n") =
        str "gitdir: .git/worktrees/w1" := by decide
    have h2 : (str "gitdir:").isPrefixOf (str "gitdir: .git/worktrees/w1") = true := by
      decide
    have h3 : rustTrim ((str "gitdir: .git/worktrees/w1").drop 7) =
        str ".git/worktrees/w1" := by decide
    have h4 : pathFromString (str ".git/worktrees/w1") =
        ⟨false, [str ".git", str "worktrees", str "w1"]⟩ := by decide
    have h5 : str ".git/worktrees/w1" ≠ ([] : Str) := by decide
    simp [parse_gitdir_file, RPath.child, RPath.parent?, RPath.join,
      h1, h2, h3, h4, h5]
  · intro p c h1 h2 h3
    simp [parse_gitdir_file, h1, h2, h3]

/-- The two marker lines differ. -/
theorem begin_ne_end : MANAGED_BLOCK_BEGIN ≠ MANAGED_BLOCK_END := by decide

/-- `stripCr` is the identity on lines without a carriage return. -/
theorem stripCr_of_not_mem {l : Str} (h : '\r' ∉ l) : stripCr l = l := by
  unfold stripCr
  split
  · rename_i heq
    exact absurd (List.mem_of_mem_getLast? heq) h
  · rfl

/-- Every character of every line produced by the worker comes from the
input or the accumulator. -/
theorem rustLinesAux_chars : ∀ (t acc : Str), ∀ l ∈ rustLinesAux t acc,
    ∀ c ∈ l, c ∈ t ∨ c ∈ acc := by
  intro t
  induction t with
  | nil =>
    intro acc l hl c hc
    simp only [rustLinesAux] at hl
    split at hl
    · simp at hl
    · simp only [List.mem_singleton] at hl
      subst hl
      right
      simpa using hc
  | cons x rest ih =>
    intro acc l hl c hc
    simp only [rustLinesAux] at hl
    split at hl
    · rename_i hx
      rcases List.mem_cons.mp hl with h | h
      · subst h
        have hsub : stripCr acc.reverse ⊆ acc.reverse := by
          unfold stripCr
          split
          · exact List.dropLast_subset _
          · exact fun a ha => ha
        right
        simpa using hsub hc
      · rcases ih [] l h c hc with h2 | h2
        · left; simp [h2]
        · simp at h2
    · rcases ih (x :: acc) l hl c hc with h2 | h2
      · left; simp [h2]
      · rcases List.mem_cons.mp h2 with h3 | h3
        · left; simp [h3]
        · right; exact h3

/-- No produced line contains a newline. -/
theorem rustLinesAux_no_newline : ∀ (t acc : Str), '\n' ∉ acc →
    ∀ l ∈ rustLinesAux t acc, '\n' ∉ l := by
  intro t
  induction t with
  | nil =>
    intro acc hacc l hl
    simp only [rustLinesAux] at hl
    split at hl
    · simp at hl
    · simp only [List.mem_singleton] at hl
      subst hl
      simpa using hacc
  | cons x rest ih =>
    intro acc hacc l hl
    simp only [rustLinesAux] at hl
    split at hl
    · rcases List.mem_cons.mp hl with h | h
      · subst h
        intro hc
        have hsub : stripCr acc.reverse ⊆ acc.reverse := by
          unfold stripCr
          split
          · exact List.dropLast_subset _
          · exact fun a ha => ha
        exact hacc (by simpa using hsub hc)
      · exact ih [] (by simp) l h
    · rename_i hx
      refine ih (x :: acc) ?_ l hl
      intro hmem
      rcases List.mem_cons.mp hmem with h | h
      · exact hx h.symm
      · exact hacc h

/-- Lines of a carriage-return-free string are newline- and CR-free. -/
theorem rustLines_ok {t : Str} (h : '\r' ∉ t) : linesOk (rustLines t) := by
  intro l hl
  refine ⟨rustLinesAux_no_newline t [] (by simp) l hl, ?_⟩
  intro hc
  rcases rustLinesAux_chars t [] l hl '\r' hc with h2 | h2
  · exact h h2
  · simp at h2

/-- Splitting at an explicit first newline. -/
theorem rustLinesAux_append_newline : ∀ (l : Str), '\n' ∉ l →
    ∀ (acc rest : Str),
    rustLinesAux (l ++ '\n' :: rest) acc =
      stripCr (acc.reverse ++ l) :: rustLinesAux rest [] := by
  intro l
  induction l with
  | nil =>
    intro _ acc rest
    simp [rustLinesAux]
  | cons x xs ih =>
    intro hnl acc rest
    have hx : ¬ x = '\n' := by
      intro h
      exact hnl (by simp [h])
    have hxs : '\n' ∉ xs := fun h => hnl (by simp [h])
    simp only [List.cons_append, rustLinesAux, if_neg hx, List.append_eq]
    rw [ih hxs (x :: acc) rest]
    simp

/-- `rustLines` on `line ++ "\n" ++ rest`. -/
theorem rustLines_append_newline {l : Str} (h : '\n' ∉ l) (rest : Str) :
    rustLines (l ++ '\n' :: rest) = stripCr l :: rustLines rest := by
  unfold rustLines
  rw [rustLinesAux_append_newline l h [] rest]
  simp

/-- A nonempty newline-free string is a single line. -/
theorem rustLinesAux_single : ∀ (l : Str), '\n' ∉ l →
    ∀ acc : Str, (acc ≠ [] ∨ l ≠ []) →
    rustLinesAux l acc = [acc.reverse ++ l] := by
  intro l
  induction l with
  | nil =>
    intro _ acc hne
    have hacc : acc ≠ [] := by
      rcases hne with h | h
      · exact h
      · exact absurd rfl h
    simp [rustLinesAux, hacc]
  | cons x xs ih =>
    intro hnl acc _
    have hx : ¬ x = '\n' := by
      intro h
      exact hnl (by simp [h])
    have hxs : '\n' ∉ xs := fun h => hnl (by simp [h])
    simp only [rustLinesAux, if_neg hx]
    rw [ih hxs (x :: acc) (by simp)]
    simp

/-- Inversion of the marker scan: a reported end index is in bounds,
holds the end-marker line, and no earlier line holds it. -/
theorem scan_end_facts (ls : List Str) : ∀ (i : Nat) (st a : Option Nat) (e : Nat),
    scanMarkersAux ls i st = (a, some e) →
    i ≤ e ∧ e - i < ls.length ∧ ls.getD (e - i) [] = MANAGED_BLOCK_END ∧
      (∀ j, j < e - i → ls.getD j [] ≠ MANAGED_BLOCK_END) := by
  induction ls with
  | nil =>
    intro i st a e h
    simp [scanMarkersAux] at h
  | cons l rest ih =>
    intro i st a e h
    by_cases hb : l = MANAGED_BLOCK_BEGIN
    · rw [scanMarkersAux, if_pos hb] at h
      obtain ⟨h1, h2, h3, h4⟩ := ih (i + 1) (some i) a e h
      have hstep : e - i = (e - (i + 1)) + 1 := by omega
      refine ⟨by omega, by simp only [List.length_cons]; omega, ?_, ?_⟩
      · rw [hstep]
        simpa using h3
      · intro j hj
        cases j with
        | zero =>
          simp only [List.getD_cons_zero]
          rw [hb]
          exact begin_ne_end
        | succ j' =>
          have := h4 j' (by omega)
          simpa using this
    · by_cases he : l = MANAGED_BLOCK_END
      · rw [scanMarkersAux, if_neg hb, if_pos he] at h
        have : e = i := by
          have := congrArg Prod.snd h
          simpa using this.symm
        subst this
        refine ⟨Nat.le_refl _, by simp, ?_, ?_⟩
        · simpa using he
        · intro j hj
          omega
      · rw [scanMarkersAux, if_neg hb, if_neg he] at h
        obtain ⟨h1, h2, h3, h4⟩ := ih (i + 1) st a e h
        have hstep : e - i = (e - (i + 1)) + 1 := by omega
        refine ⟨by omega, by simp only [List.length_cons]; omega, ?_, ?_⟩
        · rw [hstep]
          simpa using h3
        · intro j hj
          cases j with
          | zero =>
            simpa using he
          | succ j' =>
            have := h4 j' (by omega)
            simpa using this

/-- Unfolding `intercalate` over a cons with nonempty tail. -/
theorem nlJoin_cons {x : Str} {rest : List Str} (h : rest ≠ []) :
    List.intercalate ['\n'] (x :: rest) =
      x ++ '\n' :: List.intercalate ['\n'] rest := by
  cases rest with
  | nil => exact absurd rfl h
  | cons y ys =>
    simp [List.intercalate, List.intersperse]

/-- Unfolding `intercalate` over an appended last element. -/
theorem nlJoin_append_single (fr : List Str) (x : Str) (h : fr ≠ []) :
    List.intercalate ['\n'] (fr ++ [x]) =
      List.intercalate ['\n'] fr ++ '\n' :: x := by
  induction fr with
  | nil => exact absurd rfl h
  | cons y ys ih =>
    cases ys with
    | nil => simp [List.intercalate, List.intersperse]
    | cons z zs =>
      rw [List.cons_append, nlJoin_cons (by simp), nlJoin_cons (by simp),
        ih (by simp)]
      simp

/-- The join of two or more lines is nonempty. -/
theorem nlJoin_ne_nil {xs : List Str} (h : 2 ≤ xs.length) :
    List.intercalate ['\n'] xs ≠ [] := by
  cases xs with
  | nil => simp at h
  | cons a rest =>
    cases rest with
    | nil => simp at h
    | cons b rest2 =>
      rw [nlJoin_cons (by simp)]
      simp

/-- Core roundtrip: re-reading `join lines ++ "\n"` recovers the lines. -/
theorem rustLines_join_roundtrip : ∀ fr : List Str, fr ≠ [] → linesOk fr →
    rustLines (List.intercalate ['\n'] fr ++ ['\n']) = fr := by
  intro fr
  induction fr with
  | nil => intro h _; exact absurd rfl h
  | cons l rest ih =>
    intro _ hok
    have hl : '\n' ∉ l := (hok l (by simp)).1
    have hr : '\r' ∉ l := (hok l (by simp)).2
    cases rest with
    | nil =>
      have : List.intercalate ['\n'] [l] = l := by
        simp [List.intercalate, List.intersperse]
      rw [this]
      have : l ++ ['\n'] = l ++ '\n' :: [] := rfl
      rw [this, rustLines_append_newline hl]
      rw [stripCr_of_not_mem hr]
      rfl
    | cons m rest2 =>
      rw [nlJoin_cons (by simp)]
      rw [List.append_assoc]
      have : ('\n' :: List.intercalate ['\n'] (m :: rest2)) ++ ['\n'] =
          '\n' :: (List.intercalate ['\n'] (m :: rest2) ++ ['\n']) := rfl
      rw [this, rustLines_append_newline hl, stripCr_of_not_mem hr]
      rw [ih (by simp) (fun x hx => hok x (by simp [hx]))]

/-- The last character of the join is the last character of the last
(nonempty) line. -/
theorem nlJoin_getLast? : ∀ (es : List Str) (L : Str), es.getLast? = some L →
    L ≠ [] → (List.intercalate ['\n'] es).getLast? = L.getLast? := by
  intro es
  induction es with
  | nil =>
    intro L h
    simp at h
  | cons x rest ih =>
    intro L hlast hL
    cases rest with
    | nil =>
      have hx : x = L := by simpa using hlast
      subst hx
      rw [show List.intercalate ['\n'] [x] = x from by
        simp [List.intercalate, List.intersperse]]
    | cons y ys =>
      rw [nlJoin_cons (by simp)]
      have h2 : (y :: ys : List Str).getLast? = some L := by
        rwa [List.getLast?_cons_cons] at hlast
      have h3 := ih L h2 hL
      rw [List.getLast?_append_of_ne_nil _ (by simp)]
      by_cases hI : List.intercalate ['\n'] (y :: ys) = []
      · exfalso
        cases ys with
        | nil =>
          have hy : y = L := by simpa using h2
          subst hy
          apply hL
          simpa [List.intercalate, List.intersperse] using hI
        | cons z zs =>
          exact (nlJoin_ne_nil (by simp)) hI
      · rw [show ('\n' :: List.intercalate ['\n'] (y :: ys) : Str) =
            ['\n'] ++ List.intercalate ['\n'] (y :: ys) from rfl]
        rw [List.getLast?_append_of_ne_nil _ hI]
        exact h3

/-- When the last line is nonempty, normalisation appends one newline. -/
theorem nj_eq_append {es : List Str} {L : Str} (hlast : es.getLast? = some L)
    (hL : L ≠ []) (hok : linesOk es) :
    normalize_newline_join es = List.intercalate ['\n'] es ++ ['\n'] := by
  have hmem : L ∈ es := List.mem_of_mem_getLast? hlast
  have hnl : '\n' ∉ L := (hok L hmem).1
  have hlc : ¬ (List.intercalate ['\n'] es).getLast? = some '\n' := by
    rw [nlJoin_getLast? es L hlast hL]
    intro hc
    exact hnl (List.mem_of_mem_getLast? hc)
  simp only [normalize_newline_join]
  rw [if_neg hlc]

/-- Appending one empty line also yields `join ++ "\n"`. -/
theorem nj_trailing_blank (fr : List Str) (h : fr ≠ []) :
    normalize_newline_join (fr ++ [[]]) =
      List.intercalate ['\n'] fr ++ ['\n'] := by
  have hI : List.intercalate ['\n'] (fr ++ [[]]) =
      List.intercalate ['\n'] fr ++ ['\n'] := by
    rw [nlJoin_append_single fr [] h]
  simp only [normalize_newline_join]
  rw [hI]
  rw [if_pos (by rw [List.getLast?_append_of_ne_nil _ (by simp)]; rfl)]

/-- Roundtrip: lines of the normalised join (nonempty last line). -/
theorem rustLines_nj {es : List Str} {L : Str} (hok : linesOk es)
    (hlast : es.getLast? = some L) (hL : L ≠ []) :
    rustLines (normalize_newline_join es) = es := by
  rw [nj_eq_append hlast hL hok]
  refine rustLines_join_roundtrip es ?_ hok
  intro h
  rw [h] at hlast
  simp at hlast

/-- Roundtrip: lines of the normalised join (one trailing empty line). -/
theorem rustLines_nj_blank {fr : List Str} (hok : linesOk fr) (h : fr ≠ []) :
    rustLines (normalize_newline_join (fr ++ [[]])) = fr := by
  rw [nj_trailing_blank fr h]
  exact rustLines_join_roundtrip fr h hok

/-- Dropping one trailing empty line does not change the normalised join
when the line before it is nonempty. -/
theorem nj_collapse {fr : List Str} {L : Str} (h : fr ≠ [])
    (hlast : fr.getLast? = some L) (hL : L ≠ []) (hok : linesOk fr) :
    normalize_newline_join (fr ++ [[]]) = normalize_newline_join fr := by
  rw [nj_trailing_blank fr h, nj_eq_append hlast hL hok]

/-- Normalised join of a cons, when the tail joins to something nonempty. -/
theorem nj_cons (x : Str) (rest : List Str) (hne : rest ≠ [])
    (hI : List.intercalate ['\n'] rest ≠ []) :
    normalize_newline_join (x :: rest) =
      x ++ '\n' :: normalize_newline_join rest := by
  simp only [normalize_newline_join]
  rw [nlJoin_cons hne]
  have hlast_eq : (x ++ '\n' :: List.intercalate ['\n'] rest).getLast? =
      (List.intercalate ['\n'] rest).getLast? := by
    rw [List.getLast?_append_of_ne_nil _ (by simp)]
    rw [show ('\n' :: List.intercalate ['\n'] rest : Str) =
        ['\n'] ++ List.intercalate ['\n'] rest from rfl]
    rw [List.getLast?_append_of_ne_nil _ hI]
  rw [hlast_eq]
  by_cases hc : (List.intercalate ['\n'] rest).getLast? = some '\n'
  · rw [if_pos hc, if_pos hc]
  · rw [if_neg hc, if_neg hc]
    simp

/-- `takeWhile (· ≠ '\n')` of `l ++ "\n" ++ x` is `l` for newline-free `l`. -/
theorem takeWhile_prepend (l x : Str) (h : '\n' ∉ l) :
    (l ++ '\n' :: x).takeWhile (· ≠ '\n') = l := by
  induction l with
  | nil => simp [List.takeWhile]
  | cons c cs ih =>
    have hc : ¬ c = '\n' := fun hh => h (by simp [hh])
    have hcs : '\n' ∉ cs := fun hh => h (by simp [hh])
    simp only [List.cons_append, List.takeWhile_cons]
    rw [if_pos (by simpa using hc)]
    rw [ih hcs]

/-- The first line of a normalised join is its first element. -/
theorem firstSegment_nj (h : Str) (rest : List Str) (hnl : '\n' ∉ h) :
    (normalize_newline_join (h :: rest)).takeWhile (· ≠ '\n') = h := by
  cases rest with
  | nil =>
    simp only [normalize_newline_join]
    rw [show List.intercalate ['\n'] [h] = h from by
      simp [List.intercalate, List.intersperse]]
    by_cases hc : h.getLast? = some '\n'
    · exact absurd (List.mem_of_mem_getLast? hc) hnl
    · rw [if_neg hc]
      exact takeWhile_prepend h [] hnl
  | cons y ys =>
    simp only [normalize_newline_join]
    rw [nlJoin_cons (by simp)]
    by_cases hc : (h ++ '\n' :: List.intercalate ['\n'] (y :: ys)).getLast? =
        some '\n'
    · rw [if_pos hc]
      exact takeWhile_prepend h _ hnl
    · rw [if_neg hc]
      rw [show (h ++ '\n' :: List.intercalate ['\n'] (y :: ys)) ++ ['\n'] =
          h ++ '\n' :: (List.intercalate ['\n'] (y :: ys) ++ ['\n']) from by
        simp]
      exact takeWhile_prepend h _ hnl

/-- Scanning marker-free body lines after the begin marker was recorded:
the first end marker afterwards stops the scan. -/
theorem scan_body : ∀ (body : List Str) (q : List Str) (i s0 : Nat),
    (∀ l ∈ body, l ≠ MANAGED_BLOCK_BEGIN ∧ l ≠ MANAGED_BLOCK_END) →
    scanMarkersAux (body ++ MANAGED_BLOCK_END :: q) i (some s0) =
      (some s0, some (i + body.length)) := by
  intro body
  induction body with
  | nil =>
    intro q i s0 _
    simp only [List.nil_append, scanMarkersAux]
    simp [Ne.symm begin_ne_end]
  | cons l rest ih =>
    intro q i s0 hfree
    have h1 : ¬ l = MANAGED_BLOCK_BEGIN := (hfree l (by simp)).1
    have h2 : ¬ l = MANAGED_BLOCK_END := (hfree l (by simp)).2
    simp only [List.cons_append, scanMarkersAux, if_neg h1, if_neg h2,
      List.append_eq]
    rw [ih q (i + 1) s0 (fun x hx => hfree x (by simp [hx]))]
    have : i + 1 + rest.length = i + (l :: rest).length := by
      simp only [List.length_cons]
      omega
    rw [this]

/-- Forward scan over `prefix ++ begin :: body ++ end :: tail`: with an
end-marker-free prefix and a marker-free body, the scan reports exactly
the inserted block's marker positions. -/
theorem scan_finds_block : ∀ (p : List Str) (i : Nat) (st : Option Nat)
    (body q : List Str),
    (∀ l ∈ p, l ≠ MANAGED_BLOCK_END) →
    (∀ l ∈ body, l ≠ MANAGED_BLOCK_BEGIN ∧ l ≠ MANAGED_BLOCK_END) →
    scanMarkersAux (p ++ MANAGED_BLOCK_BEGIN :: (body ++ MANAGED_BLOCK_END :: q)) i st =
      (some (i + p.length), some (i + p.length + body.length + 1)) := by
  intro p
  induction p with
  | nil =>
    intro i st body q _ hbody
    simp only [List.nil_append, scanMarkersAux, if_pos rfl]
    rw [scan_body body q (i + 1) i hbody]
    simp only [List.length_nil, Nat.add_zero]
    have : i + 1 + body.length = i + body.length + 1 := by omega
    rw [this]
    simp
  | cons l p2 ih =>
    intro i st body q hp hbody
    have hend : ¬ l = MANAGED_BLOCK_END := hp l (by simp)
    by_cases hbeg : l = MANAGED_BLOCK_BEGIN
    · simp only [List.cons_append, scanMarkersAux, if_pos hbeg, List.append_eq]
      rw [ih (i + 1) (some i) body q (fun x hx => hp x (by simp [hx])) hbody]
      have e1 : i + 1 + p2.length = i + (l :: p2).length := by
        simp only [List.length_cons]
        omega
      rw [e1]
    · simp only [List.cons_append, scanMarkersAux, if_neg hbeg, if_neg hend,
        List.append_eq]
      rw [ih (i + 1) st body q (fun x hx => hp x (by simp [hx])) hbody]
      have e1 : i + 1 + p2.length = i + (l :: p2).length := by
        simp only [List.length_cons]
        omega
      rw [e1]

/-- A line starting with `#!` is neither marker line. -/
theorem shebang_not_marker {l : Str} (h : (str "#!").isPrefixOf l = true) :
    l ≠ MANAGED_BLOCK_BEGIN ∧ l ≠ MANAGED_BLOCK_END := by
  constructor
  · intro he
    subst he
    exact absurd h (by decide)
  · intro he
    subst he
    exact absurd h (by decide)

/-- The prefix of the line list before a reported end marker is
end-marker-free; in particular so is the prefix before the start. -/
theorem take_endfree {ls : List Str} {s e : Nat}
    (hscan : scanMarkers ls = (some s, some e)) (hse : s ≤ e) :
    ∀ l ∈ ls.take s, l ≠ MANAGED_BLOCK_END := by
  intro l hl
  obtain ⟨-, hlt, -, hnone⟩ := scan_end_facts ls 0 none (some s) e hscan
  rcases List.mem_iff_getElem.mp hl with ⟨j, hj, hjval⟩
  have hjs : j < s := by
    have := hj
    simp only [List.length_take] at this
    omega
  have hjlen : j < ls.length := by
    have := hj
    simp only [List.length_take] at this
    omega
  rw [List.getElem_take] at hjval
  have hje : j < e - 0 := by omega
  have := hnone j hje
  rw [List.getD_eq_getElem ls [] hjlen] at this
  rw [hjval] at this
  exact this

/-- `ensure_shebang` keeps a string whose first line starts with `#!`. -/
theorem ensure_shebang_of_true {X : Str} (h : firstLineIsShebang X = true) :
    ensure_shebang X = X := by
  unfold ensure_shebang
  rw [if_pos h]

/-- `ensure_shebang` prepends the shebang line otherwise. -/
theorem ensure_shebang_of_false {X : Str} (h : ¬ firstLineIsShebang X = true) :
    ensure_shebang X = str "#!/bin/sh\n" ++ X := by
  unfold ensure_shebang
  rw [if_neg h]

/-- Dropping keeps the last element when the result is nonempty. -/
theorem getLast?_drop_of_ne_nil {ls : List Str} {n : Nat}
    (h : ls.drop n ≠ []) : (ls.drop n).getLast? = ls.getLast? := by
  conv_rhs => rw [← List.take_append_drop n ls]
  rw [List.getLast?_append_of_ne_nil _ h]

/-- On a file whose lines decompose as an end-marker-free prefix, a
well-formed block (begin marker, marker-free body, end marker) and a
tail, `upsert` replaces exactly the block region with the new block's
lines. -/
theorem upsert_of_lines_shape (X b : Str) (body P0 Q0 : List Str)
    (hbs : rustLines b = MANAGED_BLOCK_BEGIN :: (body ++ [MANAGED_BLOCK_END]))
    (hlines : rustLines X =
      P0 ++ (MANAGED_BLOCK_BEGIN :: (body ++ [MANAGED_BLOCK_END])) ++ Q0)
    (hP0 : ∀ l ∈ P0, l ≠ MANAGED_BLOCK_END)
    (hbody : ∀ l ∈ body, l ≠ MANAGED_BLOCK_BEGIN ∧ l ≠ MANAGED_BLOCK_END) :
    upsert_managed_block X b =
      ensure_shebang (normalize_newline_join
        (P0 ++ (MANAGED_BLOCK_BEGIN :: (body ++ [MANAGED_BLOCK_END])) ++ Q0)) := by
  have hshape : P0 ++ (MANAGED_BLOCK_BEGIN :: (body ++ [MANAGED_BLOCK_END])) ++ Q0 =
      P0 ++ (MANAGED_BLOCK_BEGIN :: (body ++ MANAGED_BLOCK_END :: Q0)) := by
    simp
  have hscan : scanMarkers (rustLines X) =
      (some P0.length, some (P0.length + body.length + 1)) := by
    rw [hlines, hshape]
    unfold scanMarkers
    rw [scan_finds_block P0 0 none body Q0 hP0 hbody]
    simp
  have htake : (P0 ++ (MANAGED_BLOCK_BEGIN :: (body ++ [MANAGED_BLOCK_END])) ++
      Q0).take P0.length = P0 := by
    rw [List.append_assoc]
    exact List.take_left P0 _
  have hdroplen : P0.length + body.length + 1 + 1 =
      (P0 ++ (MANAGED_BLOCK_BEGIN :: (body ++ [MANAGED_BLOCK_END]))).length := by
    simp
    omega
  have hdrop : (P0 ++ (MANAGED_BLOCK_BEGIN :: (body ++ [MANAGED_BLOCK_END])) ++
      Q0).drop (P0.length + body.length + 1 + 1) = Q0 := by
    rw [hdroplen]
    exact List.drop_left _ Q0
  simp only [upsert_managed_block, hscan]
  rw [if_pos (by omega)]
  rw [hlines, hbs, htake, hdrop]

/-- Core fixpoint: upsert leaves its own kind of output unchanged when
the final line list does not end in an empty line. -/
theorem upsert_fixpoint_core (P body Q : List Str) (b : Str) (M : Str)
    (hbs : rustLines b = MANAGED_BLOCK_BEGIN :: (body ++ [MANAGED_BLOCK_END]))
    (hP : ∀ l ∈ P, l ≠ MANAGED_BLOCK_END)
    (hok : linesOk (P ++ (MANAGED_BLOCK_BEGIN :: (body ++ [MANAGED_BLOCK_END])) ++ Q))
    (hbody : ∀ l ∈ body, l ≠ MANAGED_BLOCK_BEGIN ∧ l ≠ MANAGED_BLOCK_END)
    (hM : (P ++ (MANAGED_BLOCK_BEGIN :: (body ++ [MANAGED_BLOCK_END])) ++ Q).getLast? =
      some M)
    (hMne : M ≠ []) :
    upsert_managed_block
      (ensure_shebang (normalize_newline_join
        (P ++ (MANAGED_BLOCK_BEGIN :: (body ++ [MANAGED_BLOCK_END])) ++ Q))) b =
    ensure_shebang (normalize_newline_join
      (P ++ (MANAGED_BLOCK_BEGIN :: (body ++ [MANAGED_BLOCK_END])) ++ Q)) := by
  have hshb_nl : '\n' ∉ str "#!/bin/sh" := by decide
  have hshb_cr : '\r' ∉ str "#!/bin/sh" := by decide
  have hsplit : str "#!/bin/sh\n" = str "#!/bin/sh" ++ ['\n'] := by decide
  have hesne : P ++ (MANAGED_BLOCK_BEGIN :: (body ++ [MANAGED_BLOCK_END])) ++ Q ≠ [] := by
    simp
  have hlen2 : 2 ≤ (P ++ (MANAGED_BLOCK_BEGIN :: (body ++ [MANAGED_BLOCK_END])) ++
      Q).length := by
    simp
    omega
  have hIne : List.intercalate ['\n']
      (P ++ (MANAGED_BLOCK_BEGIN :: (body ++ [MANAGED_BLOCK_END])) ++ Q) ≠ [] :=
    nlJoin_ne_nil hlen2
  have hRT : rustLines (normalize_newline_join
      (P ++ (MANAGED_BLOCK_BEGIN :: (body ++ [MANAGED_BLOCK_END])) ++ Q)) =
      P ++ (MANAGED_BLOCK_BEGIN :: (body ++ [MANAGED_BLOCK_END])) ++ Q :=
    rustLines_nj hok hM hMne
  by_cases hfls : firstLineIsShebang (normalize_newline_join
      (P ++ (MANAGED_BLOCK_BEGIN :: (body ++ [MANAGED_BLOCK_END])) ++ Q)) = true
  · rw [ensure_shebang_of_true hfls]
    rw [upsert_of_lines_shape _ b body P Q hbs hRT hP hbody]
    exact ensure_shebang_of_true hfls
  · rw [ensure_shebang_of_false hfls]
    have hlines1 : rustLines (str "#!/bin/sh\n" ++ normalize_newline_join
        (P ++ (MANAGED_BLOCK_BEGIN :: (body ++ [MANAGED_BLOCK_END])) ++ Q)) =
        (str "#!/bin/sh" :: P) ++ (MANAGED_BLOCK_BEGIN :: (body ++
          [MANAGED_BLOCK_END])) ++ Q := by
      rw [hsplit, List.append_assoc, List.singleton_append]
      rw [rustLines_append_newline hshb_nl]
      rw [stripCr_of_not_mem hshb_cr, hRT]
      simp
    have hP1 : ∀ l ∈ str "#!/bin/sh" :: P, l ≠ MANAGED_BLOCK_END := by
      intro l hl
      rcases List.mem_cons.mp hl with h | h
      · subst h
        decide
      · exact hP l h
    rw [upsert_of_lines_shape _ b body (str "#!/bin/sh" :: P) Q hbs hlines1 hP1 hbody]
    have h2 : (str "#!/bin/sh" :: P) ++ (MANAGED_BLOCK_BEGIN ::
        (body ++ [MANAGED_BLOCK_END])) ++ Q =
        str "#!/bin/sh" :: (P ++ (MANAGED_BLOCK_BEGIN ::
          (body ++ [MANAGED_BLOCK_END])) ++ Q) := by
      simp
    rw [h2]
    rw [nj_cons _ _ hesne hIne]
    have h3 : str "#!/bin/sh" ++ '\n' :: normalize_newline_join
        (P ++ (MANAGED_BLOCK_BEGIN :: (body ++ [MANAGED_BLOCK_END])) ++ Q) =
        str "#!/bin/sh\n" ++ normalize_newline_join
        (P ++ (MANAGED_BLOCK_BEGIN :: (body ++ [MANAGED_BLOCK_END])) ++ Q) := by
      rw [hsplit]
      simp
    rw [h3]
    refine ensure_shebang_of_true ?_
    unfold firstLineIsShebang
    rw [h3.symm]
    rw [takeWhile_prepend _ _ hshb_nl]
    decide

/-- The block line list ends with the end marker. -/
theorem block_getLast? (body : List Str) :
    (MANAGED_BLOCK_BEGIN :: (body ++ [MANAGED_BLOCK_END])).getLast? =
      some MANAGED_BLOCK_END := by
  rw [show MANAGED_BLOCK_BEGIN :: (body ++ [MANAGED_BLOCK_END]) =
      (MANAGED_BLOCK_BEGIN :: body) ++ [MANAGED_BLOCK_END] from by simp]
  exact List.getLast?_concat _

/-- Fixpoint: upsert leaves its own kind of output unchanged, for any
tail that is empty, a single empty line, or ends in a nonempty line. -/
theorem upsert_fixpoint (P body Q : List Str) (b : Str)
    (hbs : rustLines b = MANAGED_BLOCK_BEGIN :: (body ++ [MANAGED_BLOCK_END]))
    (hP : ∀ l ∈ P, l ≠ MANAGED_BLOCK_END)
    (hok : linesOk (P ++ (MANAGED_BLOCK_BEGIN :: (body ++ [MANAGED_BLOCK_END])) ++ Q))
    (hbody : ∀ l ∈ body, l ≠ MANAGED_BLOCK_BEGIN ∧ l ≠ MANAGED_BLOCK_END)
    (hQ : (∃ L, Q.getLast? = some L ∧ L ≠ []) ∨ Q = [] ∨ Q = [[]]) :
    upsert_managed_block
      (ensure_shebang (normalize_newline_join
        (P ++ (MANAGED_BLOCK_BEGIN :: (body ++ [MANAGED_BLOCK_END])) ++ Q))) b =
    ensure_shebang (normalize_newline_join
      (P ++ (MANAGED_BLOCK_BEGIN :: (body ++ [MANAGED_BLOCK_END])) ++ Q)) := by
  rcases hQ with ⟨L, hQl, hLne⟩ | rfl | rfl
  · have hQne : Q ≠ [] := by
      intro h
      subst h
      simp at hQl
    have hes_last : (P ++ (MANAGED_BLOCK_BEGIN :: (body ++ [MANAGED_BLOCK_END])) ++
        Q).getLast? = some L := by
      rw [show P ++ (MANAGED_BLOCK_BEGIN :: (body ++ [MANAGED_BLOCK_END])) ++ Q =
          (P ++ (MANAGED_BLOCK_BEGIN :: (body ++ [MANAGED_BLOCK_END]))) ++ Q from by
        simp]
      rw [List.getLast?_append_of_ne_nil _ hQne]
      exact hQl
    exact upsert_fixpoint_core P body Q b L hbs hP hok hbody hes_last hLne
  · have hes_last : (P ++ (MANAGED_BLOCK_BEGIN :: (body ++ [MANAGED_BLOCK_END])) ++
        ([] : List Str)).getLast? = some MANAGED_BLOCK_END := by
      simp only [List.append_nil]
      rw [List.getLast?_append_of_ne_nil _ (by simp)]
      exact block_getLast? body
    exact upsert_fixpoint_core P body [] b MANAGED_BLOCK_END hbs hP hok hbody
      hes_last (by decide)
  · have hfr_last : (P ++ (MANAGED_BLOCK_BEGIN ::
        (body ++ [MANAGED_BLOCK_END]))).getLast? = some MANAGED_BLOCK_END := by
      rw [List.getLast?_append_of_ne_nil _ (by simp)]
      exact block_getLast? body
    have hfrok : linesOk (P ++ (MANAGED_BLOCK_BEGIN :: (body ++ [MANAGED_BLOCK_END]))) := by
      intro l hl
      refine hok l ?_
      simp only [List.mem_append] at hl ⊢
      tauto
    have hok2 : linesOk (P ++ (MANAGED_BLOCK_BEGIN :: (body ++ [MANAGED_BLOCK_END])) ++
        ([] : List Str)) := by
      intro l hl
      simp only [List.append_nil] at hl
      refine hok l ?_
      simp only [List.mem_append] at hl ⊢
      tauto
    have hcoll : normalize_newline_join
        (P ++ (MANAGED_BLOCK_BEGIN :: (body ++ [MANAGED_BLOCK_END])) ++ [[]]) =
        normalize_newline_join
        (P ++ (MANAGED_BLOCK_BEGIN :: (body ++ [MANAGED_BLOCK_END])) ++ []) := by
      rw [show P ++ (MANAGED_BLOCK_BEGIN :: (body ++ [MANAGED_BLOCK_END])) ++ [[]] =
          (P ++ (MANAGED_BLOCK_BEGIN :: (body ++ [MANAGED_BLOCK_END]))) ++ [[]] from by
        simp]
      rw [nj_collapse (by simp) hfr_last (by decide) hfrok]
      simp
    rw [hcoll]
    have hes_last : (P ++ (MANAGED_BLOCK_BEGIN :: (body ++ [MANAGED_BLOCK_END])) ++
        ([] : List Str)).getLast? = some MANAGED_BLOCK_END := by
      simp only [List.append_nil]
      rw [List.getLast?_append_of_ne_nil _ (by simp)]
      exact block_getLast? body
    exact upsert_fixpoint_core P body [] b MANAGED_BLOCK_END hbs hP hok2 hbody
      hes_last (by decide)

/-- C3 amended: upsert is idempotent for every carriage-return-free text
that does not end in an empty line, whenever the block is well-formed:
its lines are the begin marker, a body free of marker lines, and the end
marker. -/
theorem upsert_idempotent_wellformed (t b : Str) (body : List Str)
    (ht : '\r' ∉ t) (hb : '\r' ∉ b)
    (hbs : rustLines b = MANAGED_BLOCK_BEGIN :: (body ++ [MANAGED_BLOCK_END]))
    (hbody : ∀ l ∈ body, l ≠ MANAGED_BLOCK_BEGIN ∧ l ≠ MANAGED_BLOCK_END)
    (hlast : ∀ l, (rustLines t).getLast? = some l → l ≠ []) :
    upsert_managed_block (upsert_managed_block t b) b = upsert_managed_block t b := by
  have htok : linesOk (rustLines t) := rustLines_ok ht
  have hbok : linesOk (MANAGED_BLOCK_BEGIN :: (body ++ [MANAGED_BLOCK_END])) := by
    rw [← hbs]
    exact rustLines_ok hb
  have hlsL : rustLines t ≠ [] →
      ∃ L, (rustLines t).getLast? = some L ∧ L ≠ [] := by
    intro hne
    obtain ⟨L, hL⟩ := Option.isSome_iff_exists.mp (List.getLast?_isSome.mpr hne)
    exact ⟨L, hL, hlast L hL⟩
  -- the insert branch is always a fixpoint
  have hmain : upsert_managed_block (ensure_shebang (normalize_newline_join
      (insertBlockLines (rustLines t) (rustLines b)))) b =
      ensure_shebang (normalize_newline_join
        (insertBlockLines (rustLines t) (rustLines b))) := by
    rcases hls : rustLines t with - | ⟨l0, rest⟩
    case nil =>
      have hform : insertBlockLines ([] : List Str) (rustLines b) =
          ([] : List Str) ++ (MANAGED_BLOCK_BEGIN :: (body ++ [MANAGED_BLOCK_END])) ++
            [[]] := by
        simp [insertBlockLines, hbs]
      rw [hform]
      refine upsert_fixpoint [] body [[]] b hbs (by simp) ?_ hbody (by simp)
      intro l hl
      have hcase : l = MANAGED_BLOCK_BEGIN ∨ l ∈ body ∨ l = MANAGED_BLOCK_END ∨
          l = [] := by
        simp only [List.nil_append, List.mem_append, List.mem_cons,
          List.mem_singleton, List.not_mem_nil] at hl
        tauto
      rcases hcase with h | h | h | h
      · subst h
        exact hbok _ (by simp)
      · exact hbok l (by simp [h])
      · subst h
        exact hbok _ (by simp)
      · subst h
        exact ⟨by simp, by simp⟩
    case cons =>
      by_cases hsheb : (str "#!").isPrefixOf l0 = true
      · have hform : insertBlockLines (l0 :: rest) (rustLines b) =
            [l0, []] ++ (MANAGED_BLOCK_BEGIN :: (body ++ [MANAGED_BLOCK_END])) ++
              ([] :: rest) := by
          simp [insertBlockLines, hsheb, hbs]
        rw [hform]
        refine upsert_fixpoint [l0, []] body ([] :: rest) b hbs ?_ ?_ hbody ?_
        · intro l hl
          rcases List.mem_cons.mp hl with h | h
          · subst h
            exact (shebang_not_marker hsheb).2
          · simp only [List.mem_singleton] at h
            subst h
            decide
        · intro x hx
          have hcase : x ∈ rustLines t ∨
              x ∈ MANAGED_BLOCK_BEGIN :: (body ++ [MANAGED_BLOCK_END]) ∨ x = [] := by
            rw [hls]
            simp only [List.mem_append, List.mem_cons, List.mem_singleton,
              List.not_mem_nil] at hx
            simp only [List.mem_cons, List.mem_append, List.mem_singleton]
            tauto
          rcases hcase with h | h | h
          · exact htok x h
          · exact hbok x h
          · subst h
            exact ⟨by simp, by simp⟩
        · cases hrest : rest with
          | nil => right; right; rfl
          | cons r rs =>
            left
            obtain ⟨L, hL, hLne⟩ := hlsL (by rw [hls]; simp)
            refine ⟨L, ?_, hLne⟩
            rw [List.getLast?_cons_cons]
            have h2 : (rustLines t).getLast? = (r :: rs : List Str).getLast? := by
              rw [hls, hrest, List.getLast?_cons_cons]
            rw [← h2, hL]
      · have hform : insertBlockLines (l0 :: rest) (rustLines b) =
            ([] : List Str) ++ (MANAGED_BLOCK_BEGIN :: (body ++ [MANAGED_BLOCK_END])) ++
              ([] :: (l0 :: rest)) := by
          simp [insertBlockLines, hsheb, hbs]
        rw [hform]
        refine upsert_fixpoint [] body ([] :: (l0 :: rest)) b hbs (by simp) ?_ hbody ?_
        · intro x hx
          have hcase : x ∈ rustLines t ∨
              x ∈ MANAGED_BLOCK_BEGIN :: (body ++ [MANAGED_BLOCK_END]) ∨ x = [] := by
            rw [hls]
            simp only [List.nil_append, List.mem_append, List.mem_cons,
              List.mem_singleton, List.not_mem_nil] at hx
            simp only [List.mem_cons, List.mem_append, List.mem_singleton]
            tauto
          rcases hcase with h | h | h
          · exact htok x h
          · exact hbok x h
          · subst h
            exact ⟨by simp, by simp⟩
        · left
          obtain ⟨L, hL, hLne⟩ := hlsL (by rw [hls]; simp)
          refine ⟨L, ?_, hLne⟩
          rw [List.getLast?_cons_cons, ← hls, hL]
  rcases hscan_eq : scanMarkers (rustLines t) with ⟨os, oe⟩
  match os, oe with
  | some s, some e =>
    by_cases hse : s ≤ e
    · -- recognized block: splice in place
      have hup : upsert_managed_block t b = ensure_shebang (normalize_newline_join
          ((rustLines t).take s ++ rustLines b ++ (rustLines t).drop (e + 1))) := by
        simp only [upsert_managed_block, hscan_eq]
        rw [if_pos hse]
      rw [hup, hbs]
      refine upsert_fixpoint _ body _ b hbs (take_endfree hscan_eq hse) ?_ hbody ?_
      · intro l hl
        simp only [List.mem_append] at hl
        rcases hl with (h | h) | h
        · exact htok l (List.take_subset _ _ h)
        · exact hbok l h
        · exact htok l (List.drop_subset _ _ h)
      · cases hdrop : (rustLines t).drop (e + 1) with
        | nil => right; left; rfl
        | cons d ds =>
          left
          have hdne : (rustLines t).drop (e + 1) ≠ [] := by rw [hdrop]; simp
          obtain ⟨L, hL, hLne⟩ := hlsL (by
            intro hc
            rw [hc] at hdrop
            simp at hdrop)
          refine ⟨L, ?_, hLne⟩
          rw [← hdrop]
          rw [getLast?_drop_of_ne_nil hdne]
          exact hL
    · have hup : upsert_managed_block t b = ensure_shebang (normalize_newline_join
          (insertBlockLines (rustLines t) (rustLines b))) := by
        simp only [upsert_managed_block, hscan_eq]
        rw [if_neg hse]
      rw [hup]
      exact hmain
  | some s, none =>
    have hup : upsert_managed_block t b = ensure_shebang (normalize_newline_join
        (insertBlockLines (rustLines t) (rustLines b))) := by
      simp only [upsert_managed_block, hscan_eq]
    rw [hup]
    exact hmain
  | none, some e =>
    have hup : upsert_managed_block t b = ensure_shebang (normalize_newline_join
        (insertBlockLines (rustLines t) (rustLines b))) := by
      simp only [upsert_managed_block, hscan_eq]
    rw [hup]
    exact hmain
  | none, none =>
    have hup : upsert_managed_block t b = ensure_shebang (normalize_newline_join
        (insertBlockLines (rustLines t) (rustLines b))) := by
      simp only [upsert_managed_block, hscan_eq]
    rw [hup]
    exact hmain

/-- C3 counterexample: with a block that has no marker lines (here the
body `"hello\n"`), upsert is not idempotent — the second application
inserts the block a second time. -/
theorem upsert_not_idempotent_cex :
    upsert_managed_block (str "") (str "hello\n") = str "#!/bin/sh\nhello\n" ∧
    upsert_managed_block (upsert_managed_block (str "") (str "hello\n"))
        (str "hello\n") = str "#!/bin/sh\n\nhello\n\nhello\n" ∧
    upsert_managed_block (upsert_managed_block (str "") (str "hello\n"))
        (str "hello\n") ≠ upsert_managed_block (str "") (str "hello\n") := by
  refine ⟨by decide, by decide, ?_⟩
  decide

/-- C3 amended, witness: Scenario-B text with the generated demo block. -/
theorem upsert_idempotent_wellformed_witness :
    ('\r' ∉ str "#!/bin/sh\necho hi\n" ∧ '\r' ∉ demoBlock ∧
      rustLines demoBlock = MANAGED_BLOCK_BEGIN ::
        ([str "GHI_ENABLED=1"] ++ [MANAGED_BLOCK_END])) ∧
    upsert_managed_block
        (upsert_managed_block (str "#!/bin/sh\necho hi\n") demoBlock) demoBlock =
      upsert_managed_block (str "#!/bin/sh\necho hi\n") demoBlock :=
  ⟨⟨by decide, by decide, by decide⟩,
   upsert_idempotent_wellformed (str "#!/bin/sh\necho hi\n") demoBlock
     [str "GHI_ENABLED=1"] (by decide) (by decide) (by decide) (by decide)
     (by
       intro l hl
       rw [show (rustLines (str "#!/bin/sh\necho hi\n")).getLast? =
           some (str "echo hi") from by decide] at hl
       cases Option.some.inj hl
       decide)⟩

/-- C4: on text with a recognized block, when exactly one line inside the
block range is a flag-setting line (`GHI_ENABLED=` after leading
whitespace), `disable` rewrites exactly that line to `GHI_ENABLED=0` and
keeps every other line — inside the block and outside it — identical
(the output is the input line sequence with a single `set`); when no line
in the range is a flag-setting line, `disable` is a hard error. -/
theorem disable_flag_line_behaviour (t : Str) (s e : Nat)
    (hscan : scanMarkers (rustLines t) = (some s, some e)) (hse : s ≤ e) :
    (∀ i, s ≤ i → i ≤ e →
      (∀ j (hj : j < (rustLines t).length), s ≤ j → j ≤ e →
        (isGhiFlagLine ((rustLines t)[j]) = true ↔ j = i)) →
      disable_managed_block t =
        .ok (normalize_newline_join ((rustLines t).set i GHI_DISABLED_LINE))) ∧
    ((∀ j (hj : j < (rustLines t).length), s ≤ j → j ≤ e →
        isGhiFlagLine ((rustLines t)[j]) = false) →
      disable_managed_block t =
        .error (str "Managed block found, but no GHI_ENABLED setting line was found")) := by
  have hend := scan_end_facts (rustLines t) 0 none (some s) e hscan
  have helen : e < (rustLines t).length := by
    have := hend.2.1
    omega
  constructor
  · intro i his hie huniq
    have hilen : i < (rustLines t).length := by omega
    have henumlen : i < (rustLines t).enum.length := by
      simpa [List.enum_length] using hilen
    have hany : ((rustLines t).enum.any (fun p =>
        decide (¬ (p.1 < s ∨ p.1 > e)) && isGhiFlagLine p.2)) = true := by
      rw [List.any_eq_true]
      refine ⟨(i, (rustLines t)[i]), ?_, ?_⟩
      · rw [← List.getElem_enum _ _ henumlen]
        exact List.getElem_mem _
      · have hflag : isGhiFlagLine ((rustLines t)[i]) = true :=
          (huniq i hilen his hie).mpr rfl
        simp [hflag]
        omega
    have hout : ((rustLines t).enum.map (fun p =>
        if p.1 < s ∨ p.1 > e then p.2
        else if isGhiFlagLine p.2 then GHI_DISABLED_LINE
        else p.2)) = (rustLines t).set i GHI_DISABLED_LINE := by
      refine List.ext_getElem (by simp [List.enum_length]) ?_
      intro j hj1 hj2
      have hj : j < (rustLines t).length := by simpa using hj2
      rw [List.getElem_map, List.getElem_enum _ _
        (by simpa [List.enum_length] using hj)]
      by_cases hrange : j < s ∨ j > e
      · have hji : i ≠ j := by omega
        simp only [if_pos hrange]
        rw [List.getElem_set_ne hji (by simpa using hj2)]
      · simp only [if_neg hrange]
        by_cases hji : j = i
        · subst hji
          have hflag : isGhiFlagLine ((rustLines t)[j]) = true :=
            (huniq j hj (by omega) (by omega)).mpr rfl
          rw [if_pos hflag, List.getElem_set_self (by simpa using hj2)]
        · have hflag : isGhiFlagLine ((rustLines t)[j]) = false := by
            rcases Bool.eq_false_or_eq_true (isGhiFlagLine ((rustLines t)[j])) with h | h
            · exact absurd ((huniq j hj (by omega) (by omega)).mp h) hji
            · exact h
          rw [if_neg (by simp [hflag]), List.getElem_set_ne (by omega) (by simpa using hj2)]
    simp only [disable_managed_block, hscan]
    rw [if_neg (show ¬ s > e by omega)]
    rw [if_pos hany, hout]
  · intro hnone
    have hany : ((rustLines t).enum.any (fun p =>
        decide (¬ (p.1 < s ∨ p.1 > e)) && isGhiFlagLine p.2)) = false := by
      rw [← Bool.not_eq_true, List.any_eq_true]
      rintro ⟨⟨j, line⟩, hmem, hp⟩
      rcases List.mem_iff_getElem.mp hmem with ⟨idx, hidx, hidx2⟩
      have hidxlen : idx < (rustLines t).length := by
        simpa [List.enum_length] using hidx
      rw [List.getElem_enum] at hidx2
      have hj_eq : idx = j := congrArg Prod.fst hidx2
      have hline : (rustLines t)[idx] = line := congrArg Prod.snd hidx2
      simp only [Bool.and_eq_true, decide_eq_true_eq] at hp
      obtain ⟨hrange, hflag⟩ := hp
      have hzero := hnone idx hidxlen (by omega) (by omega)
      rw [hline] at hzero
      rw [hzero] at hflag
      exact Bool.false_ne_true hflag
    simp only [disable_managed_block, hscan]
    rw [if_neg (show ¬ s > e by omega)]
    rw [if_neg (by simp only [hany]; exact Bool.false_ne_true)]

/-- C4 witness: the demo managed hook has the block at lines 1–3 with a
unique flag line at index 2; disabling rewrites exactly that line. -/
theorem disable_flag_line_behaviour_witness :
    scanMarkers (rustLines demoManagedHook) = (some 1, some 3) ∧
    disable_managed_block demoManagedHook =
      .ok (normalize_newline_join ((rustLines demoManagedHook).set 2 GHI_DISABLED_LINE)) :=
  ⟨by decide,
   (disable_flag_line_behaviour demoManagedHook 1 3 (by decide) (by decide)).1
     2 (by decide) (by decide) (by decide)⟩

/-- C8: pruning with retention `k > 0` keeps at most `k` prefix-matching
snapshot files, the surviving prefix-matching files are exactly the `k`
lexicographically largest (i.e. most recent, for the fixed-width
timestamp names), every deleted name precedes every surviving
prefix-matching name, and `k = 0` disables pruning entirely. -/
theorem prune_retention (listing : List Str) (pre : Str) (k : Nat)
    (hnd : listing.Nodup) :
    (k = 0 → prune_deletions listing pre k = [] ∧
      prune_result listing pre k = listing) ∧
    (0 < k →
      (prune_result listing pre k).countP (fun n => pre.isPrefixOf n) ≤ k ∧
      List.Perm
        ((prune_result listing pre k).filter (fun n => pre.isPrefixOf n))
        (((listing.filter (fun n => pre.isPrefixOf n)).insertionSort strLE).drop
          ((listing.filter (fun n => pre.isPrefixOf n)).length - k)) ∧
      (∀ d ∈ prune_deletions listing pre k, ∀ s,
        s ∈ prune_result listing pre k → pre.isPrefixOf s = true → strLE d s)) := by
  have hperm : List.Perm
      ((listing.filter (fun n => pre.isPrefixOf n)).insertionSort strLE)
      (listing.filter (fun n => pre.isPrefixOf n)) :=
    List.perm_insertionSort strLE _
  have hnd_m : (listing.filter (fun n => pre.isPrefixOf n)).Nodup :=
    hnd.filter _
  have hnd_s : ((listing.filter (fun n => pre.isPrefixOf n)).insertionSort strLE).Nodup :=
    hperm.nodup_iff.mpr hnd_m
  constructor
  · intro hk
    subst hk
    refine ⟨by simp [prune_deletions], ?_⟩
    unfold prune_result
    rw [show prune_deletions listing pre 0 = [] from by simp [prune_deletions]]
    refine List.filter_eq_self.mpr ?_
    intro a _
    simp
  · intro hkpos
    have hk0 : ¬ k = 0 := Nat.pos_iff_ne_zero.mp hkpos
    by_cases hlen : (listing.filter (fun n => pre.isPrefixOf n)).length ≤ k
    · have hdel : prune_deletions listing pre k = [] := by
        simp only [prune_deletions, if_neg hk0]
        rw [if_pos (by simpa [hperm.length_eq] using hlen)]
      have hres : prune_result listing pre k = listing := by
        unfold prune_result
        rw [hdel]
        refine List.filter_eq_self.mpr ?_
        intro a _
        simp
      rw [hres, hdel]
      refine ⟨?_, ?_, ?_⟩
      · simpa [List.countP_eq_length_filter] using hlen
      · have : (listing.filter (fun n => pre.isPrefixOf n)).length - k = 0 := by omega
        rw [this, List.drop_zero]
        exact hperm.symm
      · intro d hd
        simp at hd
    · -- more matches than the retention count
      have hlen' : k < (listing.filter (fun n => pre.isPrefixOf n)).length := by omega
      have hlen2 : ¬ ((listing.filter (fun n => pre.isPrefixOf n)).insertionSort
          strLE).length ≤ k := by
        rw [hperm.length_eq]
        exact hlen
      have hdel : prune_deletions listing pre k =
          ((listing.filter (fun n => pre.isPrefixOf n)).insertionSort strLE).take
            ((listing.filter (fun n => pre.isPrefixOf n)).length - k) := by
        simp only [prune_deletions, if_neg hk0]
        rw [if_neg hlen2]
        rw [hperm.length_eq]
      -- survivors restricted to the prefix are a permutation of the kept tail
      have hsplit := List.take_append_drop
        ((listing.filter (fun n => pre.isPrefixOf n)).length - k)
        ((listing.filter (fun n => pre.isPrefixOf n)).insertionSort strLE)
      have hdisj :
          ∀ s ∈ ((listing.filter (fun n => pre.isPrefixOf n)).insertionSort strLE).drop
            ((listing.filter (fun n => pre.isPrefixOf n)).length - k),
            s ∉ prune_deletions listing pre k := by
        intro s hs
        rw [hdel]
        have h1 : ((listing.filter (fun n => pre.isPrefixOf n)).insertionSort strLE).Nodup := hnd_s
        rw [← hsplit] at h1
        rcases List.nodup_append.mp h1 with ⟨-, -, hdisj'⟩
        intro hmem
        exact hdisj' hmem hs
      have hfilter_perm : List.Perm
          ((prune_result listing pre k).filter (fun n => pre.isPrefixOf n))
          (((listing.filter (fun n => pre.isPrefixOf n)).insertionSort strLE).drop
            ((listing.filter (fun n => pre.isPrefixOf n)).length - k)) := by
        unfold prune_result
        rw [List.filter_comm]
        have hstep : List.Perm
            ((listing.filter (fun n => pre.isPrefixOf n)).filter
              (fun n => decide (n ∉ prune_deletions listing pre k)))
            (((listing.filter (fun n => pre.isPrefixOf n)).insertionSort strLE).filter
              (fun n => decide (n ∉ prune_deletions listing pre k))) :=
          (hperm.filter _).symm
        refine hstep.trans ?_
        conv_lhs => rw [← hsplit]
        rw [List.filter_append]
        have htake :
            (((listing.filter (fun n => pre.isPrefixOf n)).insertionSort strLE).take
              ((listing.filter (fun n => pre.isPrefixOf n)).length - k)).filter
              (fun n => decide (n ∉ prune_deletions listing pre k)) = [] := by
          refine List.filter_eq_nil_iff.mpr ?_
          intro a ha
          rw [hdel]
          simpa using ha
        have hdrop :
            (((listing.filter (fun n => pre.isPrefixOf n)).insertionSort strLE).drop
              ((listing.filter (fun n => pre.isPrefixOf n)).length - k)).filter
              (fun n => decide (n ∉ prune_deletions listing pre k)) =
            ((listing.filter (fun n => pre.isPrefixOf n)).insertionSort strLE).drop
              ((listing.filter (fun n => pre.isPrefixOf n)).length - k) := by
          refine List.filter_eq_self.mpr ?_
          intro a ha
          simpa using hdisj a ha
        rw [htake, hdrop, List.nil_append]
      refine ⟨?_, hfilter_perm, ?_⟩
      · rw [List.countP_eq_length_filter, hfilter_perm.length_eq,
          List.length_drop, hperm.length_eq]
        have harith : ∀ n m : Nat, n - (n - m) ≤ m := fun n m => by omega
        exact harith _ _
      · intro d hd s hs hps
        have hsorted : List.Pairwise strLE
            ((listing.filter (fun n => pre.isPrefixOf n)).insertionSort strLE) :=
          List.sorted_insertionSort strLE _
        have hs_mem : s ∈ (prune_result listing pre k).filter
            (fun n => pre.isPrefixOf n) := by
          rw [List.mem_filter]
          exact ⟨hs, hps⟩
        have hs_drop := hfilter_perm.mem_iff.mp hs_mem
        rw [← hsplit] at hsorted
        rcases List.pairwise_append.mp hsorted with ⟨-, -, hcross⟩
        refine hcross d ?_ s hs_drop
        rw [hdel] at hd
        exact hd

/-- C8 witness: a listing with three snapshots and retention 2 keeps the
two largest. -/
theorem prune_retention_witness :
    ([str "a.snapshot-1", str "hook", str "a.snapshot-3", str "a.snapshot-2"] :
      List Str).Nodup ∧
    (0 < 2 →
      (prune_result [str "a.snapshot-1", str "hook", str "a.snapshot-3", str "a.snapshot-2"]
        (str "a.snapshot-") 2).countP (fun n => (str "a.snapshot-").isPrefixOf n) ≤ 2 ∧
      List.Perm
        ((prune_result [str "a.snapshot-1", str "hook", str "a.snapshot-3", str "a.snapshot-2"]
          (str "a.snapshot-") 2).filter (fun n => (str "a.snapshot-").isPrefixOf n))
        (((([str "a.snapshot-1", str "hook", str "a.snapshot-3", str "a.snapshot-2"] :
          List Str).filter (fun n => (str "a.snapshot-").isPrefixOf n)).insertionSort
            strLE).drop
          ((([str "a.snapshot-1", str "hook", str "a.snapshot-3", str "a.snapshot-2"] :
            List Str).filter (fun n => (str "a.snapshot-").isPrefixOf n)).length - 2)) ∧
      (∀ d ∈ prune_deletions
          [str "a.snapshot-1", str "hook", str "a.snapshot-3", str "a.snapshot-2"]
          (str "a.snapshot-") 2, ∀ s,
        s ∈ prune_result [str "a.snapshot-1", str "hook", str "a.snapshot-3", str "a.snapshot-2"]
          (str "a.snapshot-") 2 → (str "a.snapshot-").isPrefixOf s = true → strLE d s)) :=
  ⟨by decide,
   (prune_retention [str "a.snapshot-1", str "hook", str "a.snapshot-3", str "a.snapshot-2"]
     (str "a.snapshot-") 2 (by decide)).2⟩

/-- C6 witness: a file without the `gitdir:` prefix is rejected. -/
theorem parse_gitdir_characterization_witness :
    (str "gitdir:").isPrefixOf (rustTrim (str "bogus")) = false ∧
    parse_gitdir_file ⟨false, [str "repo", str ".git"]⟩ (str "bogus") =
      .error (str "Unsupported .git file format") :=
  ⟨by decide, parse_gitdir_characterization.1 ⟨false, [str "repo", str ".git"]⟩
    (str "bogus") (by decide)⟩

end GHI
